import Mathlib

/-!
Shallow embedding of the `custom_formatter` crate.

Macro side (custom_formatter_macro/src/lib.rs): the template parser
`FormatString::parse` and the argument reordering performed by
`custom_format_args`.

Runtime side (src/lib.rs, src/impls.rs): the `Arguments` iterator, the
type-erased `Argument`, the `from_args` render passes of the provided
target representations, and the top-level drivers `custom_format` /
`custom_format_infer`.
-/

namespace CustomFmt

/-- Models the `FormatArgument` enum of custom_formatter_macro/src/lib.rs:
`Positional`, `Numbered(usize)`, `Named(Ident)` (the identifier kept as its
source text). -/
inductive FormatArgument where
  | positional
  | numbered (n : Nat)
  | named (id : String)
deriving DecidableEq

/-- Models the three `syn::Error` outcomes of `FormatString::parse`:
"expected `}` but string was terminated", "unmatched `}` found", and the
error returned when the placeholder spec is neither empty, a `usize`, nor
a valid identifier. -/
inductive ParseError where
  | expectedClosingBrace
  | unmatchedClosingBrace
  | invalidIdent
deriving DecidableEq

/-- Models `u8::is_ascii_whitespace` (space, tab, newline, form feed,
carriage return), used by `str::trim_ascii`. -/
def isAsciiWhitespace (c : Char) : Bool :=
  c = ' ' || c = '\t' || c = '\n' || c = '\x0C' || c = '\r'

/-- Models `str::trim_ascii`: drop ASCII whitespace from both ends. -/
def trimAscii (s : String) : String :=
  ⟨((s.data.dropWhile isAsciiWhitespace).reverse.dropWhile isAsciiWhitespace).reverse⟩

/-- Largest `usize` value (64-bit target). -/
def usizeMax : Nat := 2 ^ 64 - 1

/-- Value of a run of decimal digits. -/
def digitsVal (l : List Char) : Nat :=
  l.foldl (fun a c => a * 10 + (c.toNat - '0'.toNat)) 0

/-- Digit-run part of `str::parse::<usize>`: at least one digit, all
decimal digits, value within `usize` range. -/
def parseDigits (l : List Char) : Option Nat :=
  if l = [] then none
  else if l.all (fun c => c.isDigit) then
    if digitsVal l ≤ usizeMax then some (digitsVal l) else none
  else none

/-- Models `str::parse::<usize>`: an optional leading `+` (a `-` is not a
digit and is rejected), then decimal digits, no overflow. -/
def parseUsize (s : String) : Option Nat :=
  match s.data with
  | '+' :: rest => parseDigits rest
  | l => parseDigits l

/-- ASCII identifier start (models the start of a Rust identifier). -/
def isIdentStart (c : Char) : Bool := c.isAlpha || c = '_'

/-- ASCII identifier continuation character. -/
def isIdentContinue (c : Char) : Bool := c.isAlphanum || c = '_'

/-- Rust keywords, which `syn` refuses as plain identifiers. -/
def rustKeywords : List String :=
  ["as", "break", "const", "continue", "crate", "dyn", "else", "enum",
   "extern", "false", "fn", "for", "if", "impl", "in", "let", "loop",
   "match", "mod", "move", "mut", "pub", "ref", "return", "self", "Self",
   "static", "struct", "super", "trait", "true", "type", "unsafe", "use",
   "where", "while", "async", "await", "abstract", "become", "box", "do",
   "final", "macro", "override", "priv", "typeof", "unsized", "virtual",
   "yield", "try"]

/-- Models `syn::parse_str::<syn::Ident>` on the trimmed spec (restricted
to ASCII identifiers; raw `r#` identifiers and non-ASCII XID characters
are outside this model, and no claim depends on them): nonempty, an
identifier-start character followed by identifier characters, not the
lone underscore token, not a keyword. -/
def isIdent (s : String) : Bool :=
  match s.data with
  | [] => false
  | c :: rest =>
      isIdentStart c && rest.all isIdentContinue && !(s = "_")
        && !(rustKeywords.contains s)

/-- Models the placeholder-spec classification inside `FormatString::parse`:
trim ASCII whitespace; empty spec is `Positional`; a spec parsing as
`usize` is `Numbered`; a spec parsing as an identifier is `Named`;
anything else is an error. -/
def toArgument (spec0 : String) : Except ParseError FormatArgument :=
  let a := trimAscii spec0
  if a.isEmpty then .ok .positional
  else
    match parseUsize a with
    | some n => .ok (.numbered n)
    | none => if isIdent a then .ok (.named a) else .error .invalidIdent

/-- Scanner state of `FormatString::parse`: `lit pending` is the main loop
with its pending literal buffer (`partial` in the source); `ph acc` is the
inner loop collecting `argument_string` inside a `{...}` placeholder. -/
inductive ParseMode where
  | lit (pending : String)
  | ph (acc : String)

/-- Models the character loop of `FormatString::parse`. The source's
`('{', Some('{'))` arm pushes a literal `{` but only peeks at the second
brace without consuming it; this model preserves that by recursing on the
full tail (and likewise for `('}', Some('}'))`). A placeholder open pushes
the pending buffer as a fragment unconditionally; at end of input the
pending buffer becomes a final fragment only when nonempty. -/
def parseGo : List Char → ParseMode → List String → List FormatArgument →
    Except ParseError (List String × List FormatArgument)
  | [], .lit pending, pieces, phs =>
      if pending.length > 0 then .ok (pieces ++ [pending], phs) else .ok (pieces, phs)
  | [], .ph _, _, _ => .error .expectedClosingBrace
  | c :: rest, .lit pending, pieces, phs =>
      if c = '{' then
        match rest with
        | '{' :: _ => parseGo rest (.lit (pending.push '{')) pieces phs
        | _ => parseGo rest (.ph ("")) (pieces ++ [pending]) phs
      else if c = '}' then
        match rest with
        | '}' :: _ => parseGo rest (.lit (pending.push '}')) pieces phs
        | _ => .error .unmatchedClosingBrace
      else parseGo rest (.lit (pending.push c)) pieces phs
  | c :: rest, .ph acc, pieces, phs =>
      if c = '}' then
        match toArgument acc with
        | .ok arg => parseGo rest (.lit ("")) pieces (phs ++ [arg])
        | .error e => .error e
      else parseGo rest (.ph (acc.push c)) pieces phs

/-- Models `FormatString::parse` applied to the template literal's value:
the resulting `Punctuated<LitStr, FormatArgument>` is returned as its list
of values (the literal fragments) and its list of punctuation (the
placeholders). -/
def FormatString.parse (s : String) :
    Except ParseError (List String × List FormatArgument) :=
  parseGo s.data (.lit ("")) [] []

/-- Models the two `syn::Error` outcomes of the reordering in
`custom_format_args`: "format string missing positional argument" and
"numbered argument out of range". -/
inductive ReorderError where
  | missingPositional
  | numberedOutOfRange
deriving DecidableEq

/-- An entry of the reordered expression list built by
`custom_format_args`: either a clone of a call-argument expression, or
`Expr::Verbatim` of a named identifier from the caller's scope. -/
inductive ResolvedExpr (α : Type) where
  | arg (a : α)
  | ident (id : String)
deriving DecidableEq

variable {α β : Type}

/-- Models the `args_reordered` computation of `custom_format_args`:
placeholders are resolved left to right; `cursor` is the position of the
shared `args_iter` (starting at 0), advanced only by `Positional`
placeholders; `Numbered(n)` reads `args.get(n)` without touching the
cursor; `Named` injects the identifier verbatim. The `collect::<Result>`
short-circuits at the first error. -/
def reorderArgs (phs : List FormatArgument) (args : List α) (cursor : Nat) :
    Except ReorderError (List (ResolvedExpr α)) :=
  match phs with
  | [] => .ok []
  | .positional :: rest =>
      match args[cursor]? with
      | some a => (reorderArgs rest args (cursor + 1)).map (fun l => .arg a :: l)
      | none => .error .missingPositional
  | .numbered n :: rest =>
      match args[n]? with
      | some a => (reorderArgs rest args cursor).map (fun l => .arg a :: l)
      | none => .error .numberedOutOfRange
  | .named id :: rest => (reorderArgs rest args cursor).map (fun l => .ident id :: l)

/-- Models the whole `custom_format_args` pipeline: parse the template,
then reorder the call arguments against the placeholders; the expansion is
`Arguments::new(&pieces, &resolved)`. -/
def customFormatArgs (template : String) (args : List α) :
    Except (ParseError ⊕ ReorderError) (List String × List (ResolvedExpr α)) :=
  match FormatString.parse template with
  | .error e => .error (.inl e)
  | .ok (pieces, phs) =>
      match reorderArgs phs args 0 with
      | .error e => .error (.inr e)
      | .ok resolved => .ok (pieces, resolved)

/-- Number of `Positional` placeholders in a list; the implicit cursor
after processing that list from cursor 0. -/
def countPositional : List FormatArgument → Nat
  | [] => 0
  | .positional :: rest => countPositional rest + 1
  | _ :: rest => countPositional rest

/-- The `j`-th placeholder resolves without error against an argument list
of length `alen` when the implicit cursor starts from base `c`: a
`Positional` placeholder needs the cursor (base plus the number of earlier
`Positional` placeholders) in range, a `Numbered(n)` needs `n` in range,
a `Named` never fails, and an absent index is vacuously fine. -/
def stepOk (phs : List FormatArgument) (alen c j : Nat) : Prop :=
  match phs[j]? with
  | some .positional => c + countPositional (phs.take j) < alen
  | some (.numbered n) => n < alen
  | _ => True

/-- The spec's left-to-right resolution rule: one output entry per
placeholder, in template order; a `Positional` placeholder at position `i`
takes the argument at the cursor (the number of earlier `Positional`
placeholders), `Numbered(n)` takes the argument at `n`, and `Named(id)`
resolves to the identifier itself, independent of the argument list. -/
def ReorderSpec (phs : List FormatArgument) (args : List α)
    (out : List (ResolvedExpr α)) : Prop :=
  out.length = phs.length ∧
  ∀ i,
    (phs[i]? = some .positional →
      out[i]? = (args[countPositional (phs.take i)]?).map ResolvedExpr.arg) ∧
    (∀ n, phs[i]? = some (.numbered n) →
      out[i]? = (args[n]?).map ResolvedExpr.arg) ∧
    (∀ id, phs[i]? = some (.named id) → out[i]? = some (.ident id))

/-- Models `Arguments<'a, F>` from src/lib.rs: the two parallel slices.
The element type of `args` is kept generic; it is instantiated with
`Argument` below. -/
structure Arguments (α : Type) where
  pieces : List String
  args : List α

/-- Models `<Arguments as Iterator>::next`: `split_first` on `pieces`,
and if a piece remains, `split_first` on `args`. -/
def Arguments.next (a : Arguments α) : Option ((String × Option α) × Arguments α) :=
  match a.pieces with
  | [] => none
  | p :: ps =>
      match a.args with
      | [] => some ((p, none), ⟨ps, []⟩)
      | x :: xs => some ((p, some x), ⟨ps, xs⟩)

/-- Fuelled driver for iterating `Arguments.next`. -/
def Arguments.iterateAux : Nat → Arguments α → List (String × Option α)
  | 0, _ => []
  | n + 1, a =>
      match a.next with
      | none => []
      | some (u, rest) => u :: Arguments.iterateAux n rest

/-- The list of units produced by repeatedly calling `next` until it
returns `None`; each `next` step consumes one piece, so fuel
`pieces.length` is exact. -/
def Arguments.iterate (a : Arguments α) : List (String × Option α) :=
  Arguments.iterateAux a.pieces.length a

/-- Models `Argument<'a, F>` with error type `E` made explicit: the
`(ptr, formatter)` pair collapses to the rendering function `fmt`
(state-passing version of `fn(&self, &mut F) -> Result<(), E>`), together
with the stored `estimated_capacity`. -/
structure Argument (F E : Type) where
  fmt : F → Except E F
  estimated_capacity : Nat

variable {F E O : Type}

/-- Models `Arguments::estimated_total_capacity`: the sum of the stored
per-argument estimates. -/
def Arguments.estimatedTotalCapacity (a : Arguments (Argument F E)) : Nat :=
  (a.args.map Argument.estimated_capacity).sum

/-- The render-pass loop shared verbatim by the three
`CustomFormatter::from_args` impls in src/impls.rs: for each
`(piece, arg)` unit from the iterator, append the piece into the
accumulator with `write` (the `?` on `self_.write` / `write_str`), then,
if an argument is present, render it (the `?` on `arg.fmt`), stopping at
the first error. -/
def fromArgsLoop (write : F → String → Except E F) :
    List (String × Option (Argument F E)) → F → Except E F
  | [], acc => .ok acc
  | (piece, oa) :: rest, acc =>
      match write acc piece with
      | .error e => .error e
      | .ok acc1 =>
          match oa with
          | none => fromArgsLoop write rest acc1
          | some arg =>
              match arg.fmt acc1 with
              | .error e => .error e
              | .ok acc2 => fromArgsLoop write rest acc2

/-- UTF-8 encoding of one character (models `str::as_bytes` content). -/
def utf8EncodeChar (c : Char) : List Nat :=
  let n := c.toNat
  if n < 0x80 then [n]
  else if n < 0x800 then
    [0xC0 ||| (n >>> 6), 0x80 ||| (n &&& 0x3F)]
  else if n < 0x10000 then
    [0xE0 ||| (n >>> 12), 0x80 ||| ((n >>> 6) &&& 0x3F), 0x80 ||| (n &&& 0x3F)]
  else
    [0xF0 ||| (n >>> 18), 0x80 ||| ((n >>> 12) &&& 0x3F),
     0x80 ||| ((n >>> 6) &&& 0x3F), 0x80 ||| (n &&& 0x3F)]

/-- Byte content of a string (models `str::as_bytes`). -/
def utf8Bytes (s : String) : List Nat :=
  (s.data.map utf8EncodeChar).flatten

/-- Models `std::io::Error` opaquely (its structure is never inspected). -/
inductive IoError where
  | mk
deriving DecidableEq

/-- Models `std::fmt::Error` (a unit struct). -/
inductive FmtError where
  | mk
deriving DecidableEq

/-- Models `Vec::with_capacity`: the contents are empty whatever the
capacity argument is; capacity affects allocation only. -/
def vecWithCapacity (_c : Nat) : List Nat := []

/-- Models `String::with_capacity`. -/
def strWithCapacity (_c : Nat) : String := ""

/-- Models `<Vec<u8> as io::Write>::write` on a piece's bytes: appends
and always succeeds. -/
def vecWrite (acc : List Nat) (piece : String) : Except IoError (List Nat) :=
  .ok (acc ++ utf8Bytes piece)

/-- Models `fmt::Write::write_str` for a `String` accumulator: appends
and always succeeds. -/
def strWrite (acc : String) (piece : String) : Except FmtError String :=
  .ok (acc ++ piece)

/-- Models `<Vec<u8> as CustomFormatter>::from_args`: start from
`Vec::with_capacity(args.estimated_total_capacity())`, then run the
render-pass loop over the iterated units. -/
def vecFromArgs (a : Arguments (Argument (List Nat) IoError)) :
    Except IoError (List Nat) :=
  fromArgsLoop vecWrite a.iterate (vecWithCapacity a.estimatedTotalCapacity)

/-- Models `<DebugFormatter as CustomFormatter>::from_args`
(the accumulator is the wrapped `String`). -/
def debugFromArgs (a : Arguments (Argument String FmtError)) :
    Except FmtError String :=
  fromArgsLoop strWrite a.iterate (strWithCapacity a.estimatedTotalCapacity)

/-- Models `<DisplayFormatter as CustomFormatter>::from_args`. -/
def displayFromArgs (a : Arguments (Argument String FmtError)) :
    Except FmtError String :=
  fromArgsLoop strWrite a.iterate (strWithCapacity a.estimatedTotalCapacity)

/-- Models the `CustomFormatter` trait for a formatter state `F` with
`Output = O` and `Error = E`: the single entry point `from_args`. -/
structure CustomFormatterImpl (F E O : Type) where
  from_args : Arguments (Argument F E) → Except E O

/-- Outcome of a top-level driver call: a normal value, or a panic with
the given message. -/
inductive PanicOr (O : Type) where
  | value (o : O)
  | panicked (msg : String)

/-- Models the driver `custom_format`: return the formatter's output, and
panic on a formatter error. -/
def custom_format (C : CustomFormatterImpl F E O)
    (args : Arguments (Argument F E)) : PanicOr O :=
  match C.from_args args with
  | .ok inner => .value inner
  | .error _ => .panicked ("the formatter returned an error")

/-- Models the driver `custom_format_infer` (requires `Output = Self`,
hence output type `F`). -/
def custom_format_infer (C : CustomFormatterImpl F E F)
    (args : Arguments (Argument F E)) : PanicOr F :=
  match C.from_args args with
  | .ok inner => .value inner
  | .error _ => .panicked ("the formatter returned an error")

/-- Replace an argument's stored capacity estimate, keeping its renderer. -/
def withEstimate (g : Argument F E → Nat) (a : Argument F E) : Argument F E :=
  ⟨a.fmt, g a⟩

/-- A concrete argument whose renderer always fails (for exercising the
error path of a render pass). -/
def sampleErrRender : Argument (List Nat) IoError :=
  ⟨fun _ => .error IoError.mk, 0⟩

/-- A concrete formatter implementation whose `from_args` always fails. -/
def failFromArgs : CustomFormatterImpl (List Nat) IoError (List Nat) :=
  ⟨fun _ => .error IoError.mk⟩

/-- A concrete formatter implementation whose `from_args` always
succeeds with an empty output. -/
def okFromArgs : CustomFormatterImpl (List Nat) IoError (List Nat) :=
  ⟨fun _ => .ok []⟩

/-! Theorems. -/

theorem parseGo_ok_counts (cs : List Char) :
    ∀ (mode : ParseMode) (pieces ps : List String) (phs qs : List FormatArgument),
      parseGo cs mode pieces phs = .ok (ps, qs) →
      pieces.length = phs.length + (match mode with | .lit _ => 0 | .ph _ => 1) →
      ps.length = qs.length ∨ ps.length = qs.length + 1 := by
  induction cs with
  | nil =>
    intro mode pieces ps phs qs h hinv
    cases mode with
    | lit pending =>
      simp only [parseGo] at h
      split at h
      · obtain ⟨rfl, rfl⟩ : pieces ++ [pending] = ps ∧ phs = qs := by
          simpa [Prod.ext_iff] using h
        right
        simpa using hinv
      · obtain ⟨rfl, rfl⟩ : pieces = ps ∧ phs = qs := by
          simpa [Prod.ext_iff] using h
        left
        simpa using hinv
    | ph acc => exact Except.noConfusion h
  | cons c rest ih =>
    intro mode pieces ps phs qs h hinv
    cases mode with
    | lit pending =>
      simp only [parseGo] at h
      split at h
      · split at h
        · exact ih _ _ _ _ _ h hinv
        · refine ih _ _ _ _ _ h ?_
          simpa using hinv
      · split at h
        · split at h
          · exact ih _ _ _ _ _ h hinv
          · exact Except.noConfusion h
        · exact ih _ _ _ _ _ h hinv
    | ph acc =>
      simp only [parseGo] at h
      split at h
      · split at h
        · refine ih _ _ _ _ _ h ?_
          simpa using hinv
        · exact Except.noConfusion h
      · exact ih _ _ _ _ _ h hinv

/-- Claim C1, amended: for every template string accepted by
`FormatString.parse`, the literal-fragment list's length equals the
placeholder list's length or exceeds it by exactly one. The original
"exactly one greater, always" fails for templates ending in a placeholder
(and for the empty template), because the final pending literal is pushed
only when nonempty. -/
theorem parse_piece_count (s : String) (pieces : List String)
    (phs : List FormatArgument) (h : FormatString.parse s = .ok (pieces, phs)) :
    pieces.length = phs.length ∨ pieces.length = phs.length + 1 :=
  parseGo_ok_counts s.data (.lit ("")) [] pieces [] phs h rfl

/-- Witness for C1's amended theorem at the template "x{}y". -/
theorem parse_piece_count_witness :
    FormatString.parse ("x\x7b\x7dy") = .ok (["x", "y"], [FormatArgument.positional]) ∧
    ((["x", "y"] : List String).length = [FormatArgument.positional].length ∨
      (["x", "y"] : List String).length = [FormatArgument.positional].length + 1) :=
  ⟨rfl, parse_piece_count ("x\x7b\x7dy") ["x", "y"] [FormatArgument.positional] rfl⟩

/-- Counterexample to claim C1 as stated: the template "{}" parses
successfully into one fragment and one placeholder, so the fragment count
is not placeholder count + 1. -/
theorem parse_piece_count_counterexample :
    FormatString.parse ("\x7b\x7d") = .ok ([""], [FormatArgument.positional]) ∧
    ([""] : List String).length ≠ [FormatArgument.positional].length + 1 :=
  ⟨rfl, by decide⟩

/-- Claim C2, code evaluation at the failing input: the parser does not
consume the second brace of a `{{` escape, so the template "a{{b}}c" does
not parse into the single fragment "a{b}c" with zero placeholders;
instead the second `{` opens a placeholder (`b`) and the parse fails with
the unmatched-`}` error at the second `}`. -/
theorem escape_not_resolved :
    FormatString.parse ("a\x7b\x7bb\x7d\x7dc") = .error .unmatchedClosingBrace :=
  rfl

/-- Claim C5, code evaluation: the two error examples behave as the spec
says ("unterminated {" fails with the expected-`}` error and
"stray } here" with the unmatched-`}` error), but "{{}" - whose `}` is a
stray closing brace once `{{` is read as an escape - parses successfully,
because the unconsumed second `{` of the escape opens a placeholder that
the `}` then closes. -/
theorem brace_error_eval :
    FormatString.parse ("unterminated \x7b") = .error .expectedClosingBrace ∧
    FormatString.parse ("stray \x7d here") = .error .unmatchedClosingBrace ∧
    FormatString.parse ("\x7b\x7b\x7d") = .ok (["\x7b"], [FormatArgument.positional]) :=
  ⟨rfl, rfl, rfl⟩

theorem reorderArgs_ok_spec :
    ∀ (phs : List FormatArgument) (args : List α) (c : Nat)
      (out : List (ResolvedExpr α)),
      reorderArgs phs args c = .ok out →
      out.length = phs.length ∧
      ∀ i : Nat,
        (phs[i]? = some .positional →
          out[i]? = (args[c + countPositional (phs.take i)]?).map ResolvedExpr.arg) ∧
        (∀ n, phs[i]? = some (.numbered n) →
          out[i]? = (args[n]?).map ResolvedExpr.arg) ∧
        (∀ id, phs[i]? = some (.named id) → out[i]? = some (.ident id)) := by
  intro phs
  induction phs with
  | nil =>
    intro args c out h
    obtain rfl : ([] : List (ResolvedExpr α)) = out := by
      simpa [reorderArgs] using h
    exact ⟨rfl, fun i => ⟨by simp, by simp, by simp⟩⟩
  | cons ph rest ih =>
    intro args c out h
    cases ph with
    | positional =>
      cases hc : args[c]? with
      | none => rw [reorderArgs, hc] at h; exact Except.noConfusion h
      | some a =>
        rw [reorderArgs, hc] at h
        cases hr : reorderArgs rest args (c + 1) with
        | error e => rw [hr] at h; exact Except.noConfusion h
        | ok tl =>
          rw [hr] at h
          obtain rfl : ResolvedExpr.arg a :: tl = out := by
            simpa [Except.map] using h
          obtain ⟨hlen, hspec⟩ := ih args (c + 1) tl hr
          refine ⟨by simp [hlen], fun i => ?_⟩
          cases i with
          | zero =>
            refine ⟨fun _ => ?_, fun n hn => ?_, fun id hid => ?_⟩
            · simp [countPositional, hc]
            · simp at hn
            · simp at hid
          | succ i =>
            have h0 := hspec i
            refine ⟨fun hp => ?_, fun n hn => ?_, fun id hid => ?_⟩
            · have harith :
                  c + countPositional ((FormatArgument.positional :: rest).take (i + 1)) =
                    c + 1 + countPositional (rest.take i) := by
                simp [countPositional]
                omega
              rw [List.getElem?_cons_succ, harith]
              exact h0.1 (by simpa using hp)
            · rw [List.getElem?_cons_succ]
              exact h0.2.1 n (by simpa using hn)
            · rw [List.getElem?_cons_succ]
              exact h0.2.2 id (by simpa using hid)
    | numbered n0 =>
      cases hc : args[n0]? with
      | none => rw [reorderArgs, hc] at h; exact Except.noConfusion h
      | some a =>
        rw [reorderArgs, hc] at h
        cases hr : reorderArgs rest args c with
        | error e => rw [hr] at h; exact Except.noConfusion h
        | ok tl =>
          rw [hr] at h
          obtain rfl : ResolvedExpr.arg a :: tl = out := by
            simpa [Except.map] using h
          obtain ⟨hlen, hspec⟩ := ih args c tl hr
          refine ⟨by simp [hlen], fun i => ?_⟩
          cases i with
          | zero =>
            refine ⟨fun hp => ?_, fun n hn => ?_, fun id hid => ?_⟩
            · simp at hp
            · obtain rfl : n0 = n := by simpa using hn
              simp [hc]
            · simp at hid
          | succ i =>
            have h0 := hspec i
            refine ⟨fun hp => ?_, fun n hn => ?_, fun id hid => ?_⟩
            · have harith :
                  c + countPositional ((FormatArgument.numbered n0 :: rest).take (i + 1)) =
                    c + countPositional (rest.take i) := by
                simp [countPositional]
              rw [List.getElem?_cons_succ, harith]
              exact h0.1 (by simpa using hp)
            · rw [List.getElem?_cons_succ]
              exact h0.2.1 n (by simpa using hn)
            · rw [List.getElem?_cons_succ]
              exact h0.2.2 id (by simpa using hid)
    | named id0 =>
      rw [reorderArgs] at h
      cases hr : reorderArgs rest args c with
      | error e => rw [hr] at h; exact Except.noConfusion h
      | ok tl =>
        rw [hr] at h
        obtain rfl : ResolvedExpr.ident id0 :: tl = out := by
          simpa [Except.map] using h
        obtain ⟨hlen, hspec⟩ := ih args c tl hr
        refine ⟨by simp [hlen], fun i => ?_⟩
        cases i with
        | zero =>
          refine ⟨fun hp => ?_, fun n hn => ?_, fun id hid => ?_⟩
          · simp at hp
          · simp at hn
          · obtain rfl : id0 = id := by simpa using hid
            simp
        | succ i =>
          have h0 := hspec i
          refine ⟨fun hp => ?_, fun n hn => ?_, fun id hid => ?_⟩
          · have harith :
                c + countPositional ((FormatArgument.named id0 :: rest).take (i + 1)) =
                  c + countPositional (rest.take i) := by
              simp [countPositional]
            rw [List.getElem?_cons_succ, harith]
            exact h0.1 (by simpa using hp)
          · rw [List.getElem?_cons_succ]
            exact h0.2.1 n (by simpa using hn)
          · rw [List.getElem?_cons_succ]
            exact h0.2.2 id (by simpa using hid)

/-- Claim C3: whenever `reorderArgs` succeeds (implicit cursor starting at
0), the result has one entry per placeholder in template order, where a
`Positional` placeholder at position `i` takes the argument at the cursor
(the number of earlier `Positional` placeholders), `Numbered(n)` takes the
argument at index `n` without moving the cursor (so the same index may be
taken by several placeholders, duplicating the expression), and
`Named(id)` resolves to the identifier itself, never to the argument
list. -/
theorem reorder_resolves_spec (phs : List FormatArgument) (args : List α)
    (out : List (ResolvedExpr α)) (h : reorderArgs phs args 0 = .ok out) :
    ReorderSpec phs args out := by
  obtain ⟨hlen, hspec⟩ := reorderArgs_ok_spec phs args 0 out h
  refine ⟨hlen, fun i => ?_⟩
  obtain ⟨h1, h2, h3⟩ := hspec i
  exact ⟨fun hp => by simpa using h1 hp, h2, h3⟩

/-- Witness for C3 at the spec's own example: "{0}{0}" with the (single)
argument 7 resolves both placeholders to that argument, duplicating it. -/
theorem reorder_resolves_spec_witness :
    reorderArgs [FormatArgument.numbered 0, FormatArgument.numbered 0]
        ([7] : List Nat) 0 = .ok [.arg 7, .arg 7] ∧
    ReorderSpec [FormatArgument.numbered 0, FormatArgument.numbered 0]
        ([7] : List Nat) [.arg 7, .arg 7] :=
  ⟨rfl, reorder_resolves_spec _ _ _ rfl⟩

theorem exceptMap_eq_error {ε σ τ : Type} (f : σ → τ) (x : Except ε σ) (e : ε) :
    Except.map f x = .error e ↔ x = .error e := by
  cases x <;> simp [Except.map]

theorem stepOk_pos_zero (rest : List FormatArgument) (alen c : Nat) :
    stepOk (FormatArgument.positional :: rest) alen c 0 ↔ c < alen := by
  simp [stepOk, countPositional]

theorem stepOk_num_zero (n : Nat) (rest : List FormatArgument) (alen c : Nat) :
    stepOk (FormatArgument.numbered n :: rest) alen c 0 ↔ n < alen := by
  simp [stepOk]

theorem stepOk_named_zero (id : String) (rest : List FormatArgument)
    (alen c : Nat) : stepOk (FormatArgument.named id :: rest) alen c 0 := by
  simp [stepOk]

theorem stepOk_cons_succ (ph : FormatArgument) (rest : List FormatArgument)
    (alen c j : Nat) :
    stepOk (ph :: rest) alen c (j + 1) ↔
      stepOk rest alen (c + countPositional [ph]) j := by
  have hget : (ph :: rest)[j + 1]? = rest[j]? := List.getElem?_cons_succ
  cases ph with
  | positional =>
    simp only [stepOk, hget, List.take_succ_cons, countPositional]
    cases hrj : rest[j]? with
    | none => simp [hrj]
    | some x =>
      cases x with
      | positional =>
        simp [hrj]
        omega
      | numbered n => simp [hrj]
      | named id => simp [hrj]
  | numbered n =>
    simp only [stepOk, hget, List.take_succ_cons, countPositional]
    cases hrj : rest[j]? with
    | none => simp [hrj]
    | some x => cases x <;> simp [hrj]
  | named id =>
    simp only [stepOk, hget, List.take_succ_cons, countPositional]
    cases hrj : rest[j]? with
    | none => simp [hrj]
    | some x => cases x <;> simp [hrj]

theorem exists_cons_missing (ph : FormatArgument) (rest : List FormatArgument)
    (alen c : Nat) :
    (∃ i : Nat, (ph :: rest)[i]? = some .positional ∧
        alen ≤ c + countPositional ((ph :: rest).take i) ∧
        ∀ j < i, stepOk (ph :: rest) alen c j)
    ↔ ((ph = .positional ∧ alen ≤ c) ∨
        (stepOk (ph :: rest) alen c 0 ∧
          ∃ i : Nat, rest[i]? = some .positional ∧
            alen ≤ (c + countPositional [ph]) + countPositional (rest.take i) ∧
            ∀ j < i, stepOk rest alen (c + countPositional [ph]) j)) := by
  constructor
  · rintro ⟨i, hi, hle, hstep⟩
    cases i with
    | zero =>
      left
      obtain rfl : ph = .positional := by simpa using hi
      exact ⟨rfl, by simpa [countPositional] using hle⟩
    | succ i =>
      right
      refine ⟨hstep 0 (by omega), i, by simpa using hi, ?_, ?_⟩
      · cases ph <;>
          simp [List.take_succ_cons, countPositional] at hle ⊢ <;> omega
      · intro j hj
        exact (stepOk_cons_succ ph rest alen c j).mp (hstep (j + 1) (by omega))
  · rintro (⟨rfl, hle⟩ | ⟨h0, i, hi, hle, hstep⟩)
    · exact ⟨0, by simp, by simpa [countPositional] using hle,
        fun j hj => absurd hj (by omega)⟩
    · refine ⟨i + 1, by simpa using hi, ?_, ?_⟩
      · cases ph <;>
          simp [List.take_succ_cons, countPositional] at hle ⊢ <;> omega
      · intro j hj
        cases j with
        | zero => exact h0
        | succ j => exact (stepOk_cons_succ ph rest alen c j).mpr (hstep j (by omega))

theorem exists_cons_range (ph : FormatArgument) (rest : List FormatArgument)
    (alen c : Nat) :
    (∃ (i n : Nat), (ph :: rest)[i]? = some (.numbered n) ∧ alen ≤ n ∧
        ∀ j < i, stepOk (ph :: rest) alen c j)
    ↔ ((∃ n : Nat, ph = .numbered n ∧ alen ≤ n) ∨
        (stepOk (ph :: rest) alen c 0 ∧
          ∃ (i n : Nat), rest[i]? = some (.numbered n) ∧ alen ≤ n ∧
            ∀ j < i, stepOk rest alen (c + countPositional [ph]) j)) := by
  constructor
  · rintro ⟨i, n, hi, hle, hstep⟩
    cases i with
    | zero =>
      left
      exact ⟨n, by simpa using hi, hle⟩
    | succ i =>
      right
      refine ⟨hstep 0 (by omega), i, n, by simpa using hi, hle, ?_⟩
      intro j hj
      exact (stepOk_cons_succ ph rest alen c j).mp (hstep (j + 1) (by omega))
  · rintro (⟨n, rfl, hle⟩ | ⟨h0, i, n, hi, hle, hstep⟩)
    · exact ⟨0, n, by simp, hle, fun j hj => absurd hj (by omega)⟩
    · refine ⟨i + 1, n, by simpa using hi, hle, ?_⟩
      intro j hj
      cases j with
      | zero => exact h0
      | succ j => exact (stepOk_cons_succ ph rest alen c j).mpr (hstep j (by omega))

theorem reorderArgs_error_iff :
    ∀ (phs : List FormatArgument) (args : List α) (c : Nat),
      (reorderArgs phs args c = .error .missingPositional ↔
        ∃ i : Nat, phs[i]? = some .positional ∧
          args.length ≤ c + countPositional (phs.take i) ∧
          ∀ j < i, stepOk phs args.length c j) ∧
      (reorderArgs phs args c = .error .numberedOutOfRange ↔
        ∃ (i n : Nat), phs[i]? = some (.numbered n) ∧ args.length ≤ n ∧
          ∀ j < i, stepOk phs args.length c j) := by
  intro phs
  induction phs with
  | nil =>
    intro args c
    refine ⟨⟨fun h => ?_, ?_⟩, ⟨fun h => ?_, ?_⟩⟩
    · simp only [reorderArgs] at h
      exact Except.noConfusion h
    · rintro ⟨i, hi, -, -⟩
      simp at hi
    · simp only [reorderArgs] at h
      exact Except.noConfusion h
    · rintro ⟨i, n, hi, -, -⟩
      simp at hi
  | cons ph rest ih =>
    intro args c
    cases ph with
    | positional =>
      cases hc : args[c]? with
      | none =>
        have hlec : args.length ≤ c := by simpa using hc
        have hred : reorderArgs (FormatArgument.positional :: rest) args c =
            .error .missingPositional := by
          simp only [reorderArgs, hc]
        constructor
        · rw [hred]
          constructor
          · intro _
            refine ⟨0, by simp, ?_, fun j hj => absurd hj (by omega)⟩
            simpa [countPositional] using hlec
          · intro _
            rfl
        · rw [hred]
          constructor
          · intro h
            injection h with h2
            exact ReorderError.noConfusion h2
          · rintro ⟨i, n, hi, hlen, hstep⟩
            cases i with
            | zero => simp at hi
            | succ i =>
              have h0 := (stepOk_pos_zero rest args.length c).mp (hstep 0 (by omega))
              exact absurd h0 (by omega)
      | some a =>
        have hclt : c < args.length := by
          obtain ⟨hlt, -⟩ := List.getElem?_eq_some_iff.mp hc
          exact hlt
        have hred : reorderArgs (FormatArgument.positional :: rest) args c =
            (reorderArgs rest args (c + 1)).map (fun l => ResolvedExpr.arg a :: l) := by
          simp only [reorderArgs, hc]
        constructor
        · rw [hred, exceptMap_eq_error, (ih args (c + 1)).1, exists_cons_missing]
          simp only [countPositional, Nat.zero_add, Nat.add_zero]
          rw [stepOk_pos_zero]
          constructor
          · exact fun h => Or.inr ⟨hclt, h⟩
          · rintro (⟨-, hle⟩ | ⟨-, h⟩)
            · exact absurd hle (by omega)
            · exact h
        · rw [hred, exceptMap_eq_error, (ih args (c + 1)).2, exists_cons_range]
          simp only [countPositional, Nat.zero_add, Nat.add_zero]
          rw [stepOk_pos_zero]
          constructor
          · exact fun h => Or.inr ⟨hclt, h⟩
          · rintro (⟨n, hn, -⟩ | ⟨-, h⟩)
            · exact absurd hn (by simp)
            · exact h
    | numbered n0 =>
      cases hc : args[n0]? with
      | none =>
        have hlen0 : args.length ≤ n0 := by simpa using hc
        have hred : reorderArgs (FormatArgument.numbered n0 :: rest) args c =
            .error .numberedOutOfRange := by
          simp only [reorderArgs, hc]
        constructor
        · rw [hred]
          constructor
          · intro h
            injection h with h2
            exact ReorderError.noConfusion h2
          · rintro ⟨i, hi, hlen, hstep⟩
            cases i with
            | zero => simp at hi
            | succ i =>
              have h0 := (stepOk_num_zero n0 rest args.length c).mp (hstep 0 (by omega))
              exact absurd h0 (by omega)
        · rw [hred]
          constructor
          · intro _
            exact ⟨0, n0, by simp, hlen0, fun j hj => absurd hj (by omega)⟩
          · intro _
            rfl
      | some a =>
        have hn0lt : n0 < args.length := by
          obtain ⟨hlt, -⟩ := List.getElem?_eq_some_iff.mp hc
          exact hlt
        have hred : reorderArgs (FormatArgument.numbered n0 :: rest) args c =
            (reorderArgs rest args c).map (fun l => ResolvedExpr.arg a :: l) := by
          simp only [reorderArgs, hc]
        constructor
        · rw [hred, exceptMap_eq_error, (ih args c).1, exists_cons_missing]
          simp only [countPositional, Nat.zero_add, Nat.add_zero]
          rw [stepOk_num_zero]
          constructor
          · exact fun h => Or.inr ⟨hn0lt, h⟩
          · rintro (⟨hph, -⟩ | ⟨-, h⟩)
            · exact absurd hph (by simp)
            · exact h
        · rw [hred, exceptMap_eq_error, (ih args c).2, exists_cons_range]
          simp only [countPositional, Nat.zero_add, Nat.add_zero]
          rw [stepOk_num_zero]
          constructor
          · exact fun h => Or.inr ⟨hn0lt, h⟩
          · rintro (⟨n, hn, hle⟩ | ⟨-, h⟩)
            · obtain rfl : n0 = n := by simpa using hn
              exact absurd hle (by omega)
            · exact h
    | named id0 =>
      have hred : reorderArgs (FormatArgument.named id0 :: rest) args c =
          (reorderArgs rest args c).map (fun l => ResolvedExpr.ident id0 :: l) := by
        simp only [reorderArgs]
      constructor
      · rw [hred, exceptMap_eq_error, (ih args c).1, exists_cons_missing]
        simp only [countPositional, Nat.zero_add, Nat.add_zero]
        constructor
        · exact fun h => Or.inr ⟨stepOk_named_zero id0 rest args.length c, h⟩
        · rintro (⟨hph, -⟩ | ⟨-, h⟩)
          · exact absurd hph (by simp)
          · exact h
      · rw [hred, exceptMap_eq_error, (ih args c).2, exists_cons_range]
        simp only [countPositional, Nat.zero_add, Nat.add_zero]
        constructor
        · exact fun h => Or.inr ⟨stepOk_named_zero id0 rest args.length c, h⟩
        · rintro (⟨n, hn, -⟩ | ⟨-, h⟩)
          · exact absurd hn (by simp)
          · exact h

/-- Claim C4: the reordering fails with the missing-positional error
exactly when, scanning placeholders left to right, a `Positional`
placeholder is reached (all earlier placeholders resolve) with the
implicit cursor - the number of earlier `Positional` placeholders - at or
past the argument count; and it fails with the out-of-range error exactly
when a `Numbered(n)` placeholder is reached with `n` at or past the
argument count. -/
theorem reorder_error_characterization (phs : List FormatArgument) (args : List α) :
    (reorderArgs phs args 0 = .error .missingPositional ↔
      ∃ i : Nat, phs[i]? = some .positional ∧
        args.length ≤ countPositional (phs.take i) ∧
        ∀ j < i, stepOk phs args.length 0 j) ∧
    (reorderArgs phs args 0 = .error .numberedOutOfRange ↔
      ∃ (i n : Nat), phs[i]? = some (.numbered n) ∧ args.length ≤ n ∧
        ∀ j < i, stepOk phs args.length 0 j) := by
  have h := reorderArgs_error_iff phs args 0
  simpa using h

theorem iterate_cons (p : String) (ps : List String) (args : List α) :
    (Arguments.mk (p :: ps) args).iterate =
      (p, args.head?) :: (Arguments.mk ps args.tail).iterate := by
  cases args <;> rfl

theorem iterate_length (pieces : List String) :
    ∀ (args : List α), (Arguments.mk pieces args).iterate.length = pieces.length := by
  induction pieces with
  | nil =>
    intro args
    rfl
  | cons p ps ih =>
    intro args
    rw [iterate_cons]
    simp [ih]

theorem iterate_getElem? (pieces : List String) :
    ∀ (args : List α) (i : Nat),
      ((Arguments.mk pieces args).iterate)[i]? =
        Option.map (fun q => (q, args[i]?)) pieces[i]? := by
  induction pieces with
  | nil =>
    intro args i
    simp [Arguments.iterate, Arguments.iterateAux]
  | cons p ps ih =>
    intro args i
    rw [iterate_cons]
    cases i with
    | zero => simp [List.head?_eq_getElem?]
    | succ i =>
      simp only [List.getElem?_cons_succ]
      rw [ih args.tail i]
      simp [List.getElem?_tail]

theorem next_none_iff (pieces : List String) (args : List α) :
    (Arguments.mk pieces args).next = none ↔ pieces = [] := by
  cases pieces with
  | nil => simp [Arguments.next]
  | cons p ps => cases args <;> simp [Arguments.next]

/-- Claim C6: iterating an `Arguments` value (repeated `next`) yields
exactly one unit per piece, in order; the i-th unit pairs the i-th piece
with `some` of the i-th argument when one exists and with `none`
otherwise; and `next` returns `none` exactly when the pieces are
exhausted. -/
theorem arguments_iteration (pieces : List String) (args : List α) :
    (Arguments.mk pieces args).iterate.length = pieces.length ∧
    (∀ i : Nat, ((Arguments.mk pieces args).iterate)[i]? =
        Option.map (fun q => (q, args[i]?)) pieces[i]?) ∧
    ((Arguments.mk pieces args).next = none ↔ pieces = []) :=
  ⟨iterate_length pieces args, fun i => iterate_getElem? pieces args i,
    next_none_iff pieces args⟩

theorem fromArgsLoop_append_error {F E : Type} (write : F → String → Except E F) :
    ∀ (pre suffix : List (String × Option (Argument F E))) (acc : F) (e : E),
      fromArgsLoop write pre acc = .error e →
      fromArgsLoop write (pre ++ suffix) acc = .error e := by
  intro pre
  induction pre with
  | nil =>
    intro suffix acc e h
    exact Except.noConfusion h
  | cons u rest ih =>
    obtain ⟨piece, oa⟩ := u
    intro suffix acc e h
    have h1 : (match write acc piece with
        | Except.error e2 => Except.error e2
        | Except.ok acc1 =>
          match oa with
          | none => fromArgsLoop write rest acc1
          | some arg =>
            match arg.fmt acc1 with
            | Except.error e2 => Except.error e2
            | Except.ok acc2 => fromArgsLoop write rest acc2) = Except.error e := h
    show (match write acc piece with
        | Except.error e2 => Except.error e2
        | Except.ok acc1 =>
          match oa with
          | none => fromArgsLoop write (rest ++ suffix) acc1
          | some arg =>
            match arg.fmt acc1 with
            | Except.error e2 => Except.error e2
            | Except.ok acc2 => fromArgsLoop write (rest ++ suffix) acc2) = Except.error e
    cases hw : write acc piece with
    | error e2 =>
      rw [hw] at h1
      exact h1
    | ok acc1 =>
      rw [hw] at h1
      cases oa with
      | none => exact ih suffix acc1 e h1
      | some arg =>
        have h2 : (match arg.fmt acc1 with
            | Except.error e2 => Except.error e2
            | Except.ok acc2 => fromArgsLoop write rest acc2) = Except.error e := h1
        show (match arg.fmt acc1 with
            | Except.error e2 => Except.error e2
            | Except.ok acc2 => fromArgsLoop write (rest ++ suffix) acc2) = Except.error e
        cases hf : arg.fmt acc1 with
        | error e2 =>
          rw [hf] at h2
          exact h2
        | ok acc2 =>
          rw [hf] at h2
          exact ih suffix acc2 e h2

/-- Claim C8: a failing step of the render-pass loop short-circuits the
pass - the loop's result on a unit list whose processed prefix already
errs is that same error, whatever units follow, so no later fragment or
argument touches the accumulator - and the drivers `custom_format` and
`custom_format_infer` turn a `from_args` error into a panic rather than
partial output, while returning the formatter's output when no step
errs. -/
theorem render_error_short_circuit :
    ∀ (F E O : Type) (write : F → String → Except E F)
      (pre suffix : List (String × Option (Argument F E))) (acc : F) (e : E)
      (C : CustomFormatterImpl F E O) (Ci : CustomFormatterImpl F E F)
      (a b : Arguments (Argument F E)) (o : O) (oi : F),
      (fromArgsLoop write pre acc = .error e →
        fromArgsLoop write (pre ++ suffix) acc = .error e) ∧
      (C.from_args a = .error e →
        custom_format C a = .panicked ("the formatter returned an error")) ∧
      (C.from_args a = .ok o → custom_format C a = .value o) ∧
      (Ci.from_args b = .error e →
        custom_format_infer Ci b = .panicked ("the formatter returned an error")) ∧
      (Ci.from_args b = .ok oi → custom_format_infer Ci b = .value oi) := by
  intro F E O write pre suffix acc e C Ci a b o oi
  refine ⟨fromArgsLoop_append_error write pre suffix acc e, ?_, ?_, ?_, ?_⟩
  · intro h
    unfold custom_format
    rw [h]
  · intro h
    unfold custom_format
    rw [h]
  · intro h
    unfold custom_format_infer
    rw [h]
  · intro h
    unfold custom_format_infer
    rw [h]

/-- Witness for C8 on concrete data: a render pass whose first argument's
renderer fails yields that error with or without further units, and the
drivers panic on a failing formatter and return the output of a
succeeding one. -/
theorem render_error_short_circuit_witness :
    fromArgsLoop vecWrite [("a", some sampleErrRender)] [] = .error IoError.mk ∧
    fromArgsLoop vecWrite ([("a", some sampleErrRender)] ++ [("b", none)]) []
      = .error IoError.mk ∧
    failFromArgs.from_args (Arguments.mk [] []) = .error IoError.mk ∧
    custom_format failFromArgs (Arguments.mk [] [])
      = .panicked ("the formatter returned an error") ∧
    okFromArgs.from_args (Arguments.mk [] []) = .ok [] ∧
    custom_format okFromArgs (Arguments.mk [] []) = .value [] ∧
    custom_format_infer failFromArgs (Arguments.mk [] [])
      = .panicked ("the formatter returned an error") ∧
    custom_format_infer okFromArgs (Arguments.mk [] []) = .value [] := by
  refine ⟨rfl, ?_, rfl, ?_, rfl, ?_, ?_, ?_⟩
  · exact (render_error_short_circuit (List Nat) IoError (List Nat) vecWrite
      [("a", some sampleErrRender)] [("b", none)] [] IoError.mk failFromArgs
      failFromArgs ⟨[], []⟩ ⟨[], []⟩ [] []).1 rfl
  · exact (render_error_short_circuit (List Nat) IoError (List Nat) vecWrite
      [] [] [] IoError.mk failFromArgs failFromArgs ⟨[], []⟩ ⟨[], []⟩ [] []).2.1 rfl
  · exact (render_error_short_circuit (List Nat) IoError (List Nat) vecWrite
      [] [] [] IoError.mk okFromArgs okFromArgs ⟨[], []⟩ ⟨[], []⟩ [] []).2.2.1 rfl
  · exact (render_error_short_circuit (List Nat) IoError (List Nat) vecWrite
      [] [] [] IoError.mk failFromArgs failFromArgs ⟨[], []⟩ ⟨[], []⟩ [] []).2.2.2.1 rfl
  · exact (render_error_short_circuit (List Nat) IoError (List Nat) vecWrite
      [] [] [] IoError.mk okFromArgs okFromArgs ⟨[], []⟩ ⟨[], []⟩ [] []).2.2.2.2 rfl

theorem iterate_map_sanitize {α β : Type} (f : α → β) (pieces : List String) :
    ∀ (args : List α),
      (Arguments.mk pieces (args.map f)).iterate =
        ((Arguments.mk pieces args).iterate).map (fun u => (u.1, u.2.map f)) := by
  induction pieces with
  | nil =>
    intro args
    rfl
  | cons p ps ih =>
    intro args
    cases args with
    | nil =>
      rw [iterate_cons, iterate_cons]
      simp only [List.head?_nil, List.tail_nil, List.map_cons, Option.map_none']
      rw [← ih []]
      simp
    | cons x xs =>
      rw [show ((x :: xs).map f) = f x :: xs.map f from rfl, iterate_cons, iterate_cons]
      simp only [List.map_cons, List.head?_cons, List.tail_cons]
      rw [ih xs]
      simp

theorem fromArgsLoop_congr {F E : Type} (write : F → String → Except E F) :
    ∀ (units1 units2 : List (String × Option (Argument F E))) (acc : F),
      units1.map (fun u => (u.1, u.2.map Argument.fmt)) =
        units2.map (fun u => (u.1, u.2.map Argument.fmt)) →
      fromArgsLoop write units1 acc = fromArgsLoop write units2 acc := by
  intro units1
  induction units1 with
  | nil =>
    intro units2 acc h
    obtain rfl : units2 = [] := by
      cases units2 with
      | nil => rfl
      | cons v vs => simp at h
    rfl
  | cons u rest ih =>
    intro units2 acc h
    cases units2 with
    | nil => simp at h
    | cons v vs =>
      obtain ⟨piece, oa⟩ := u
      obtain ⟨piece2, ob⟩ := v
      simp only [List.map_cons, List.cons.injEq, Prod.mk.injEq] at h
      obtain ⟨⟨rfl, hopt⟩, hrest⟩ := h
      cases oa with
      | none =>
        obtain rfl : ob = none := by
          cases ob with
          | none => rfl
          | some b => simp at hopt
        show (match write acc piece with
            | Except.error e2 => Except.error e2
            | Except.ok acc1 => fromArgsLoop write rest acc1) =
          (match write acc piece with
            | Except.error e2 => Except.error e2
            | Except.ok acc1 => fromArgsLoop write vs acc1)
        cases hw : write acc piece with
        | error e2 => rfl
        | ok acc1 => exact ih vs acc1 hrest
      | some arg =>
        obtain ⟨arg2, rfl⟩ : ∃ b, ob = some b := by
          cases ob with
          | none => simp at hopt
          | some b => exact ⟨b, rfl⟩
        have hfmt : arg.fmt = arg2.fmt := by simpa using hopt
        show (match write acc piece with
            | Except.error e2 => Except.error e2
            | Except.ok acc1 =>
              match arg.fmt acc1 with
              | Except.error e2 => Except.error e2
              | Except.ok acc2 => fromArgsLoop write rest acc2) =
          (match write acc piece with
            | Except.error e2 => Except.error e2
            | Except.ok acc1 =>
              match arg2.fmt acc1 with
              | Except.error e2 => Except.error e2
              | Except.ok acc2 => fromArgsLoop write vs acc2)
        rw [hfmt]
        cases hw : write acc piece with
        | error e2 => rfl
        | ok acc1 =>
          show (match arg2.fmt acc1 with
              | Except.error e2 => Except.error e2
              | Except.ok acc2 => fromArgsLoop write rest acc2) =
            (match arg2.fmt acc1 with
              | Except.error e2 => Except.error e2
              | Except.ok acc2 => fromArgsLoop write vs acc2)
          cases arg2.fmt acc1 with
          | error e2 => rfl
          | ok acc2 => exact ih vs acc2 hrest

/-- Claim C9: the per-argument capacity estimates influence only storage
pre-sizing, never content - for each provided target representation
(Vec of bytes, DebugFormatter, DisplayFormatter), rendering the same
pieces with arguments whose renderers are unchanged but whose stored
estimates are replaced arbitrarily (in particular, all set to 0) produces
identical output. -/
theorem capacity_estimate_advisory
    (pieces : List String) (argsV : List (Argument (List Nat) IoError))
    (gv : Argument (List Nat) IoError → Nat)
    (piecesD : List String) (argsD : List (Argument String FmtError))
    (gd : Argument String FmtError → Nat)
    (piecesP : List String) (argsP : List (Argument String FmtError))
    (gp : Argument String FmtError → Nat) :
    vecFromArgs ⟨pieces, argsV.map (withEstimate gv)⟩ = vecFromArgs ⟨pieces, argsV⟩ ∧
    debugFromArgs ⟨piecesD, argsD.map (withEstimate gd)⟩
      = debugFromArgs ⟨piecesD, argsD⟩ ∧
    displayFromArgs ⟨piecesP, argsP.map (withEstimate gp)⟩
      = displayFromArgs ⟨piecesP, argsP⟩ := by
  refine ⟨?_, ?_, ?_⟩
  · unfold vecFromArgs
    apply fromArgsLoop_congr
    rw [iterate_map_sanitize, List.map_map]
    congr 1
    funext u
    obtain ⟨q, o⟩ := u
    cases o <;> rfl
  · unfold debugFromArgs
    apply fromArgsLoop_congr
    rw [iterate_map_sanitize, List.map_map]
    congr 1
    funext u
    obtain ⟨q, o⟩ := u
    cases o <;> rfl
  · unfold displayFromArgs
    apply fromArgsLoop_congr
    rw [iterate_map_sanitize, List.map_map]
    congr 1
    funext u
    obtain ⟨q, o⟩ := u
    cases o <;> rfl

theorem reorderArgs_append (phs : List FormatArgument) :
    ∀ (args extra : List α) (c : Nat) (out : List (ResolvedExpr α)),
      reorderArgs phs args c = .ok out →
      reorderArgs phs (args ++ extra) c = .ok out := by
  induction phs with
  | nil =>
    intro args extra c out h
    exact h
  | cons ph rest ih =>
    intro args extra c out h
    cases ph with
    | positional =>
      cases hc : args[c]? with
      | none => rw [reorderArgs, hc] at h; exact Except.noConfusion h
      | some a =>
        rw [reorderArgs, hc] at h
        have hc2 : (args ++ extra)[c]? = some a := by
          obtain ⟨hlt, -⟩ := List.getElem?_eq_some_iff.mp hc
          rw [List.getElem?_append_left hlt]
          exact hc
        rw [reorderArgs, hc2]
        cases hr : reorderArgs rest args (c + 1) with
        | error e => rw [hr] at h; exact Except.noConfusion h
        | ok tl =>
          rw [hr] at h
          rw [ih args extra (c + 1) tl hr]
          exact h
    | numbered n0 =>
      cases hc : args[n0]? with
      | none => rw [reorderArgs, hc] at h; exact Except.noConfusion h
      | some a =>
        rw [reorderArgs, hc] at h
        have hc2 : (args ++ extra)[n0]? = some a := by
          obtain ⟨hlt, -⟩ := List.getElem?_eq_some_iff.mp hc
          rw [List.getElem?_append_left hlt]
          exact hc
        rw [reorderArgs, hc2]
        cases hr : reorderArgs rest args c with
        | error e => rw [hr] at h; exact Except.noConfusion h
        | ok tl =>
          rw [hr] at h
          rw [ih args extra c tl hr]
          exact h
    | named id0 =>
      rw [reorderArgs] at h
      rw [reorderArgs]
      cases hr : reorderArgs rest args c with
      | error e => rw [hr] at h; exact Except.noConfusion h
      | ok tl =>
        rw [hr] at h
        rw [ih args extra c tl hr]
        exact h

/-- Claim C10: when the whole `custom_format_args` pipeline succeeds on a
template and argument list, appending extra arguments is silently
accepted and leaves the produced pieces and resolved expressions
unchanged (the extras appear nowhere and are never rendered), and every
resolved entry is either a named identifier or a clone of an argument
actually referenced by index. -/
theorem extra_args_ignored (template : String) (args extra : List α)
    (pieces : List String) (out : List (ResolvedExpr α))
    (h : customFormatArgs template args = .ok (pieces, out)) :
    customFormatArgs template (args ++ extra) = .ok (pieces, out) ∧
    ∀ e ∈ out, (∃ id, e = ResolvedExpr.ident id) ∨
      ∃ (j : Nat) (a : α), args[j]? = some a ∧ e = ResolvedExpr.arg a := by
  unfold customFormatArgs at h ⊢
  cases hp : FormatString.parse template with
  | error e =>
    rw [hp] at h
    exact Except.noConfusion h
  | ok pr =>
    obtain ⟨ps, phs⟩ := pr
    rw [hp] at h
    replace h : (match reorderArgs phs args 0 with
        | Except.error e => Except.error (Sum.inr e)
        | Except.ok resolved => Except.ok (ps, resolved)) = Except.ok (pieces, out) := h
    cases hr : reorderArgs phs args 0 with
    | error e =>
      rw [hr] at h
      exact Except.noConfusion h
    | ok res =>
      rw [hr] at h
      have happ := reorderArgs_append phs args extra 0 res hr
      refine ⟨?_, ?_⟩
      · show (match reorderArgs phs (args ++ extra) 0 with
            | Except.error e => Except.error (Sum.inr e)
            | Except.ok resolved => Except.ok (ps, resolved)) = Except.ok (pieces, out)
        rw [happ]
        exact h
      · obtain ⟨rfl, rfl⟩ : ps = pieces ∧ res = out := by
          simpa using h
        intro e he
        obtain ⟨i, hi⟩ := List.mem_iff_getElem?.mp he
        obtain ⟨hlen, hspec⟩ := reorderArgs_ok_spec phs args 0 _ hr
        have hilt : i < phs.length := by
          rw [← hlen]
          obtain ⟨hlt, -⟩ := List.getElem?_eq_some_iff.mp hi
          exact hlt
        obtain ⟨ph, hph⟩ : ∃ ph, phs[i]? = some ph :=
          ⟨_, List.getElem?_eq_getElem hilt⟩
        cases ph with
        | positional =>
          have hout := (hspec i).1 hph
          rw [hi] at hout
          obtain ⟨a, ha, hae⟩ := Option.map_eq_some'.mp hout.symm
          exact Or.inr ⟨_, a, ha, hae.symm⟩
        | numbered n =>
          have hout := (hspec i).2.1 n hph
          rw [hi] at hout
          obtain ⟨a, ha, hae⟩ := Option.map_eq_some'.mp hout.symm
          exact Or.inr ⟨n, a, ha, hae.symm⟩
        | named id =>
          have hout := (hspec i).2.2 id hph
          rw [hi] at hout
          exact Or.inl ⟨id, by simpa using hout⟩

/-- Witness for C10: the pipeline on "{}" with one argument succeeds, and
appending a second, unused argument yields the identical result. -/
theorem extra_args_ignored_witness :
    customFormatArgs ("\x7b\x7d") ([3] : List Nat) = .ok ([""], [.arg 3]) ∧
    customFormatArgs ("\x7b\x7d") (([3] : List Nat) ++ [4]) = .ok ([""], [.arg 3]) :=
  ⟨rfl, (extra_args_ignored ("\x7b\x7d") [3] [4] [""] [.arg 3] rfl).1⟩

end CustomFmt
